import Mathlib

/-!
# Verification of the holocompute DSM coherence engine

Shallow embedding of the lease manager (`internal/hyperbus/hyperbus.go`),
the 2Q page cache (`internal/dsm/cache.go`), the page storage encoding
(`internal/dsm/storage.go`), the page/array model (`internal/dsm`, the
`dsm` file holding `Page`, `Array`, `NewArray`) and the array-level `Sync`
(`pkg/holocompute/array.go`), together with theorems settling the
specification claims about them.

Modelling conventions:
* Go `time.Time` instants are integers; `time.Now()` is an explicit `now`
  parameter of each operation; `t.After(u)` is `t > u`.
* A Go `map[K]V` is an association list with pairwise-distinct keys;
  assignment replaces the binding in place, `delete` removes it.
* `uuid.New()` is an explicit `newID` parameter.
* Go byte slices are `List Nat` with every element below 256 by
  construction; machine-integer conversions are made explicit.
* `fmt.Errorf` results are represented by an error datatype with one
  constructor per error site (the message text carries no behaviour).
-/

namespace HoloCompute

/-! ## Lease manager (`internal/hyperbus/hyperbus.go`)

Go declarations embedded here: `LeaseType` (`ReadLease`, `WriteLease`),
`Lease`, `leaseKey`, `LeaseManager`, `NewLeaseManager`, `AcquireLease`,
`ReleaseLease`, `ValidateLease`, `RevokeLease`, `CleanupExpiredLeases`.
-/

/-- Go `LeaseType` with its two constants `ReadLease` and `WriteLease`. -/
inductive LeaseType where
  | ReadLease
  | WriteLease
deriving DecidableEq, Repr

/-- Go `leaseKey`: uniquely identifies a leased page. `ArrayID` is a
string, `PageID` an integer. -/
structure LeaseKey where
  arrayID : String
  pageID : Int
deriving DecidableEq, Repr

/-- Go `Lease`. The Go field `Type` is called `ltype` here because `Type`
is reserved in Lean. `ExpiresAt` is an integer instant. -/
structure Lease where
  ID : String
  ArrayID : String
  PageID : Int
  ltype : LeaseType
  Owner : String
  ExpiresAt : Int
  Version : Int
deriving DecidableEq, Repr

/-- The lease table: Go `map[leaseKey]*Lease` as an association list with
distinct keys. -/
abbrev LeaseTable := List (LeaseKey × Lease)

/-- Map lookup: `lm.leases[key]`. -/
def lookupLease : LeaseTable → LeaseKey → Option Lease
  | [], _ => none
  | (k, l) :: rest, key => if k = key then some l else lookupLease rest key

/-- Map assignment `lm.leases[key] = lease`: replaces the existing binding
for the key in place, or appends a fresh binding. -/
def insertLease : LeaseTable → LeaseKey → Lease → LeaseTable
  | [], key, lease => [(key, lease)]
  | (k, l) :: rest, key, lease =>
      if k = key then (key, lease) :: rest
      else (k, l) :: insertLease rest key lease

/-- Map deletion `delete(lm.leases, key)`. -/
def eraseLease (t : LeaseTable) (key : LeaseKey) : LeaseTable :=
  t.filter (fun e => decide (e.1 ≠ key))

/-- Go `LeaseManager`: the lease table plus the configured TTL.  The
logger and mutex carry no state relevant to the claims. -/
structure LeaseManager where
  leases : LeaseTable
  ttl : Int
deriving DecidableEq

/-- Go `NewLeaseManager`: empty table. -/
def NewLeaseManager (ttl : Int) : LeaseManager :=
  { leases := [], ttl := ttl }

/-- One constructor per `fmt.Errorf` site in the lease manager. -/
inductive LeaseError where
  /-- Message "write lease already exists for page ..." -/
  | writeLeaseExists
  /-- Message "read lease exists, cannot acquire write lease for page ..." -/
  | readLeaseExists
  /-- Message "lease not found: ..." -/
  | leaseNotFound
  /-- Message "lease expired: ..." -/
  | leaseExpired
deriving DecidableEq, Repr

/-- Go `LeaseManager.AcquireLease`.  Mirrors the source: look up the key;
if a lease exists, a Write lease rejects every request, a Read lease
rejects a Write request, and a Read lease plus a Read request extends the
existing lease in place (`existingLease.ExpiresAt = time.Now().Add(lm.ttl)`,
the map still holding the same lease).  Otherwise a fresh lease is created
with `ExpiresAt = now + ttl` and stored under the key.  The source never
consults `ExpiresAt` of the existing lease here. -/
def AcquireLease (lm : LeaseManager) (now : Int) (newID : String)
    (arrayID : String) (pageID : Int) (leaseType : LeaseType)
    (owner : String) (version : Int) :
    Except LeaseError Lease × LeaseManager :=
  let key : LeaseKey := { arrayID := arrayID, pageID := pageID }
  let fresh : Lease :=
    { ID := newID, ArrayID := arrayID, PageID := pageID,
      ltype := leaseType, Owner := owner,
      ExpiresAt := now + lm.ttl, Version := version }
  match lookupLease lm.leases key with
  | some existingLease =>
      if existingLease.ltype = LeaseType.WriteLease then
        (Except.error LeaseError.writeLeaseExists, lm)
      else if existingLease.ltype = LeaseType.ReadLease ∧
              leaseType = LeaseType.WriteLease then
        (Except.error LeaseError.readLeaseExists, lm)
      else if existingLease.ltype = LeaseType.ReadLease ∧
              leaseType = LeaseType.ReadLease then
        let extended := { existingLease with ExpiresAt := now + lm.ttl }
        (Except.ok extended,
         { lm with leases := insertLease lm.leases key extended })
      else
        (Except.ok fresh,
         { lm with leases := insertLease lm.leases key fresh })
  | none =>
      (Except.ok fresh,
       { lm with leases := insertLease lm.leases key fresh })

/-- The `range` loop of `ReleaseLease`: remove the first entry whose lease
ID matches, or report that none does. -/
def releaseInTable : LeaseTable → String → Option LeaseTable
  | [], _ => none
  | (k, l) :: rest, leaseID =>
      if l.ID = leaseID then some rest
      else match releaseInTable rest leaseID with
        | some t => some ((k, l) :: t)
        | none => none

/-- Go `LeaseManager.ReleaseLease`: delete the lease with the given ID,
"lease not found" if absent. -/
def ReleaseLease (lm : LeaseManager) (leaseID : String) :
    Except LeaseError Unit × LeaseManager :=
  match releaseInTable lm.leases leaseID with
  | some t => (Except.ok (), { lm with leases := t })
  | none => (Except.error LeaseError.leaseNotFound, lm)

/-- The `range` loop of `ValidateLease`: first lease with a matching ID. -/
def findLeaseByID : LeaseTable → String → Option Lease
  | [], _ => none
  | (_, l) :: rest, leaseID =>
      if l.ID = leaseID then some l else findLeaseByID rest leaseID

/-- Go `LeaseManager.ValidateLease`: expired when `now > ExpiresAt`,
not-found when no lease has the ID, the lease otherwise. -/
def ValidateLease (lm : LeaseManager) (now : Int) (leaseID : String) :
    Except LeaseError Lease :=
  match findLeaseByID lm.leases leaseID with
  | some lease =>
      if now > lease.ExpiresAt then Except.error LeaseError.leaseExpired
      else Except.ok lease
  | none => Except.error LeaseError.leaseNotFound

/-- Go `LeaseManager.RevokeLease`: unconditionally clears any lease on the
page; returns nil either way. -/
def RevokeLease (lm : LeaseManager) (arrayID : String) (pageID : Int) :
    LeaseManager :=
  { lm with leases := eraseLease lm.leases { arrayID := arrayID, pageID := pageID } }

/-- Go `LeaseManager.CleanupExpiredLeases`: delete every entry with
`now.After(lease.ExpiresAt)`. -/
def CleanupExpiredLeases (lm : LeaseManager) (now : Int) : LeaseManager :=
  { lm with leases := lm.leases.filter (fun e => decide (¬ now > e.2.ExpiresAt)) }

/-! ### Reachable lease-manager states -/

/-- One mutating lease-manager call, with the ambient inputs (`now`, the
generated UUID) made explicit. -/
inductive LeaseOp where
  | acquire (now : Int) (newID : String) (arrayID : String) (pageID : Int)
      (leaseType : LeaseType) (owner : String) (version : Int)
  | release (leaseID : String)
  | revoke (arrayID : String) (pageID : Int)
  | cleanup (now : Int)

/-- Apply one lease-manager call, keeping the resulting state. -/
def applyLeaseOp (lm : LeaseManager) : LeaseOp → LeaseManager
  | LeaseOp.acquire now newID arrayID pageID leaseType owner version =>
      (AcquireLease lm now newID arrayID pageID leaseType owner version).2
  | LeaseOp.release leaseID => (ReleaseLease lm leaseID).2
  | LeaseOp.revoke arrayID pageID => RevokeLease lm arrayID pageID
  | LeaseOp.cleanup now => CleanupExpiredLeases lm now

/-- Run a sequence of lease-manager calls. -/
def runLeaseOps (lm : LeaseManager) (ops : List LeaseOp) : LeaseManager :=
  ops.foldl applyLeaseOp lm

/-- Number of leases recorded for the page that have the given type and
are unexpired at `now`. -/
def countLeases (t : LeaseTable) (key : LeaseKey) (now : Int)
    (leaseType : LeaseType) : Nat :=
  t.countP (fun e =>
    decide (e.1 = key) && decide (¬ now > e.2.ExpiresAt) &&
      decide (e.2.ltype = leaseType))

/-- The keys of a lease table. -/
def leaseKeys (t : LeaseTable) : List LeaseKey := t.map Prod.fst

/-! ## 2Q page cache (`internal/dsm/cache.go`)

Go declarations embedded here: `cacheKey`, `PageCache`, `NewPageCache`,
`Get`, `Put`, `evict`, `Remove`, `Size`, `Capacity`.  The Go struct keeps
a `map[cacheKey]*list.Element` index into two intrusive lists and a
`fromFreq` flag on each entry; semantically the cache content is exactly
the two lists (an entry has `fromFreq = true` iff it sits in `freqList`),
and the map holds precisely the keys of the two lists, so the index is
represented by list membership and `len(pc.cache)` by the sum of the two
list lengths.  Lists are kept front-first: `PushFront` is `cons`,
`Back` is the last element, `Remove(Back)` is `dropLast`.  The cached
`*Page` values are an arbitrary type `π` (pointers are opaque). -/

/-- Go `cacheKey`. -/
structure CacheKey where
  arrayID : String
  pageID : Int
deriving DecidableEq, Repr

/-- Go `PageCache`: capacity (a Go `int`), the "once" list and the
"frequent" list, front-first. -/
structure PageCache (π : Type) where
  capacity : Int
  onceList : List (CacheKey × π)
  freqList : List (CacheKey × π)
deriving DecidableEq

/-- Go `NewPageCache`: empty lists. -/
def NewPageCache (π : Type) (capacity : Int) : PageCache π :=
  { capacity := capacity, onceList := [], freqList := [] }

/-- Lookup of a key in one of the two lists (the `pc.cache[key]` index
restricted to that list). -/
def lookupEntry {π : Type} : List (CacheKey × π) → CacheKey → Option π
  | [], _ => none
  | (k, p) :: rest, key => if k = key then some p else lookupEntry rest key

/-- Removal of a key from one of the two lists (`list.Remove` through the
index). -/
def eraseEntry {π : Type} (l : List (CacheKey × π)) (key : CacheKey) :
    List (CacheKey × π) :=
  l.filter (fun e => decide (e.1 ≠ key))

/-- Go `len(pc.cache)`: the map holds exactly the keys of the two lists. -/
def cacheLen {π : Type} (pc : PageCache π) : Nat :=
  pc.onceList.length + pc.freqList.length

/-- Go `PageCache.evict`: drop the back of `onceList` if it is non-empty,
otherwise drop the back of `freqList`. -/
def cacheEvict {π : Type} (pc : PageCache π) : PageCache π :=
  if pc.onceList.length > 0 then
    { pc with onceList := pc.onceList.dropLast }
  else if pc.freqList.length > 0 then
    { pc with freqList := pc.freqList.dropLast }
  else pc

/-- Go `PageCache.Get`: on a hit in `onceList` the entry is promoted to
the front of `freqList`; on a hit in `freqList` it moves to the front;
otherwise a miss. -/
def cacheGet {π : Type} (pc : PageCache π) (arrayID : String) (pageID : Int) :
    Option π × PageCache π :=
  let key : CacheKey := { arrayID := arrayID, pageID := pageID }
  match lookupEntry pc.onceList key with
  | some p =>
      (some p, { pc with onceList := eraseEntry pc.onceList key,
                         freqList := (key, p) :: pc.freqList })
  | none =>
      match lookupEntry pc.freqList key with
      | some p =>
          (some p, { pc with freqList := (key, p) :: eraseEntry pc.freqList key })
      | none => (none, pc)

/-- Go `PageCache.Put`: an existing `onceList` entry is updated and
promoted to the front of `freqList`; an existing `freqList` entry is
updated and moved to the front; a new entry is pushed on the front of
`onceList`, followed by `evict` when `len(pc.cache) > pc.capacity`. -/
def cachePut {π : Type} (pc : PageCache π) (arrayID : String) (pageID : Int)
    (page : π) : PageCache π :=
  let key : CacheKey := { arrayID := arrayID, pageID := pageID }
  match lookupEntry pc.onceList key with
  | some _ =>
      { pc with onceList := eraseEntry pc.onceList key,
                freqList := (key, page) :: pc.freqList }
  | none =>
      match lookupEntry pc.freqList key with
      | some _ =>
          { pc with freqList := (key, page) :: eraseEntry pc.freqList key }
      | none =>
          let pc' := { pc with onceList := (key, page) :: pc.onceList }
          if (cacheLen pc' : Int) > pc'.capacity then cacheEvict pc' else pc'

/-- Go `PageCache.Remove`: drop the key from whichever list holds it. -/
def cacheRemove {π : Type} (pc : PageCache π) (arrayID : String)
    (pageID : Int) : PageCache π :=
  let key : CacheKey := { arrayID := arrayID, pageID := pageID }
  { pc with onceList := eraseEntry pc.onceList key,
            freqList := eraseEntry pc.freqList key }

/-- The keys currently cached (the domain of `pc.cache`). -/
def cachedKeys {π : Type} (pc : PageCache π) : List CacheKey :=
  pc.onceList.map Prod.fst ++ pc.freqList.map Prod.fst

/-! ## Page storage (`internal/dsm/storage.go`)

Byte slices are `List Nat`, each entry one byte.  Go offsets have type
`int` and may be negative, so offsets are `Int` here.  The machine-level
conversions that the Go source performs implicitly are explicit
definitions: `goUint64OfInt64` / `goInt64OfUint64` are Go's
`uint64(v)` / `int64(u)` two's-complement reinterpretations, and
`goUint32OfFloat32` / `goFloat32OfUint32` model Go's numeric conversions
`uint32(f)` / `float32(u)` on the exact rational value of a `float32`
(truncation toward zero, and the exact value back — exact for the
integers below `2^24`, which covers every use in this file). -/

/-- Little-endian byte encoding of `u`, `width` bytes
(`binary.LittleEndian.PutUintN` writes byte `j` as `(u >> 8j) & 0xff`). -/
def leBytes : Nat → Nat → List Nat
  | 0, _ => []
  | width + 1, u => u % 256 :: leBytes width (u / 256)

/-- Little-endian decoding of a byte list
(`binary.LittleEndian.UintN` computes `Σ b[j] << 8j`). -/
def leValue : List Nat → Nat
  | [] => 0
  | b :: rest => b + 256 * leValue rest

/-- Go `copy(data[offset:offset+width], bytes)`: replace the `width` bytes at
`offset`. -/
def writeBytes (data : List Nat) (offset : Nat) (bytes : List Nat) :
    List Nat :=
  data.take offset ++ bytes ++ data.drop (offset + bytes.length)

/-- Go `data[offset : offset+width]` as a value slice. -/
def readBytes (data : List Nat) (offset width : Nat) : List Nat :=
  (data.drop offset).take width

/-- Go `uint64(v)` for an `int64` value: the two's-complement bit
pattern. -/
def goUint64OfInt64 (v : Int) : Nat := (v % (2 ^ 64 : Int)).toNat

/-- Go `int64(u)` for a `uint64` value: the two's-complement
reinterpretation. -/
def goInt64OfUint64 (u : Nat) : Int :=
  if u < 2 ^ 63 then (u : Int) else (u : Int) - 2 ^ 64

/-- Go `uint32(f)` on the exact rational value of a finite `float32`:
truncation toward zero (stated for `0 ≤ f`; Go leaves the out-of-range
cases implementation-defined and the source never relies on them). -/
def goUint32OfFloat32 (f : ℚ) : Nat := (⌊f⌋).toNat

/-- Go `float32(u)` on a `uint32` value, as an exact rational: exact
whenever `u ≤ 2^24` (every such integer is a `float32`); the development
only applies it there. -/
def goFloat32OfUint32 (u : Nat) : ℚ := (u : ℚ)

/-- Go `pageStorage`: the backing byte slice. -/
structure pageStorage where
  data : List Nat
deriving DecidableEq

/-- One constructor per error site of `storage.go`. -/
inductive StorageError where
  /-- Message "offset out of bounds: ..." -/
  | outOfBounds
  /-- Message "data size mismatch: ..." -/
  | sizeMismatch
deriving DecidableEq, Repr

/-- Go `newPageStorage`: a zeroed buffer of the given size. -/
def newPageStorage (size : Nat) : pageStorage :=
  { data := List.replicate size 0 }

/-- Go `pageStorage.getInt64`: bounds check, then
`int64(binary.LittleEndian.Uint64(ps.data[offset:offset+8]))`. -/
def pageStorage.getInt64 (ps : pageStorage) (offset : Int) :
    Except StorageError Int :=
  if offset < 0 ∨ offset + 8 > (ps.data.length : Int) then
    Except.error StorageError.outOfBounds
  else
    Except.ok (goInt64OfUint64 (leValue (readBytes ps.data offset.toNat 8)))

/-- Go `pageStorage.setInt64`: bounds check, then
`binary.LittleEndian.PutUint64(ps.data[offset:offset+8], uint64(value))`. -/
def pageStorage.setInt64 (ps : pageStorage) (offset : Int) (value : Int) :
    Except StorageError pageStorage :=
  if offset < 0 ∨ offset + 8 > (ps.data.length : Int) then
    Except.error StorageError.outOfBounds
  else
    Except.ok { data := writeBytes ps.data offset.toNat (leBytes 8 (goUint64OfInt64 value)) }

/-- Go `pageStorage.getFloat32`: bounds check, then
`float32(binary.LittleEndian.Uint32(ps.data[offset:offset+4]))` — a
numeric conversion of the decoded integer, not a bit reinterpretation. -/
def pageStorage.getFloat32 (ps : pageStorage) (offset : Int) :
    Except StorageError ℚ :=
  if offset < 0 ∨ offset + 4 > (ps.data.length : Int) then
    Except.error StorageError.outOfBounds
  else
    Except.ok (goFloat32OfUint32 (leValue (readBytes ps.data offset.toNat 4)))

/-- Go `pageStorage.setFloat32`: bounds check, then
`binary.LittleEndian.PutUint32(ps.data[offset:offset+4], uint32(value))` —
the float is numerically converted (truncated) to an integer, not
reinterpreted bit-wise. -/
def pageStorage.setFloat32 (ps : pageStorage) (offset : Int) (value : ℚ) :
    Except StorageError pageStorage :=
  if offset < 0 ∨ offset + 4 > (ps.data.length : Int) then
    Except.error StorageError.outOfBounds
  else
    Except.ok { data := writeBytes ps.data offset.toNat (leBytes 4 (goUint32OfFloat32 value)) }

/-! ## Page and array model (`internal/dsm`, file defining `Page`,
`NewPage`, the typed accessors, `Array` and `NewArray`) -/

/-- Go `PageSize = 64 * 1024`. -/
def PageSize : Nat := 64 * 1024

/-- Go `Page` (the `Data` mirror field is omitted: the typed accessors
operate only on `storage`). -/
structure Page where
  ID : Int
  Version : Int
  storage : pageStorage
deriving DecidableEq

/-- Go `NewPage`: zeroed storage of `PageSize` bytes. -/
def NewPage (id : Int) (version : Int) : Page :=
  { ID := id, Version := version, storage := newPageStorage PageSize }

/-- Go `Page.GetInt64`: `offset := elementIndex * 8`. -/
def Page.GetInt64 (p : Page) (elementIndex : Int) : Except StorageError Int :=
  p.storage.getInt64 (elementIndex * 8)

/-- Go `Page.SetInt64`. -/
def Page.SetInt64 (p : Page) (elementIndex : Int) (value : Int) :
    Except StorageError Page :=
  (p.storage.setInt64 (elementIndex * 8) value).map
    (fun st => { p with storage := st })

/-- Go `Page.GetFloat32`: `offset := elementIndex * 4`. -/
def Page.GetFloat32 (p : Page) (elementIndex : Int) : Except StorageError ℚ :=
  p.storage.getFloat32 (elementIndex * 4)

/-- Go `Page.SetFloat32`. -/
def Page.SetFloat32 (p : Page) (elementIndex : Int) (value : ℚ) :
    Except StorageError Page :=
  (p.storage.setFloat32 (elementIndex * 4) value).map
    (fun st => { p with storage := st })

/-- Go `Array` (the DSM array descriptor; the mutex is state-free). -/
structure Array where
  ID : String
  Length : Nat
  NumPages : Nat
  PageMapping : List (Int × String)
  Version : Int
deriving DecidableEq

/-- Go `NewArray`: `pageCount := (length*8 + PageSize - 1) / PageSize`
(8 bytes per element), fresh ID, `Version = 1`, empty page map.  The
generated UUID is an explicit parameter.  `length` is a Go `int`; the
claims quantify over `length ≥ 0`, represented as `Nat` (for such values
Go's truncating division and `Nat` division agree). -/
def NewArray (id : String) (length : Nat) : Array :=
  { ID := id, Length := length,
    NumPages := (length * 8 + PageSize - 1) / PageSize,
    PageMapping := [], Version := 1 }

/-! ## Array-level `Sync` (`pkg/holocompute/array.go`) -/

/-- Go `sharedArray`: the fields `Sync` can reach.  The cluster pointer
and policy are irrelevant to `Sync`, which touches nothing at all. -/
structure sharedArray where
  array : Array
deriving DecidableEq

/-- Go `sharedArray.Sync`, verbatim behaviour: the body is a stub that
returns `nil` — it does not flush, revoke, or bump `sa.array.Version`
(its comment lists those steps as what "a real implementation" would
do). -/
def sharedArray.Sync (sa : sharedArray) : Except String Unit × sharedArray :=
  (Except.ok (), sa)

/-! ### Concrete fixtures used by the claim theorems and witnesses -/

/-- A Write lease on page `("a", 0)` that expired at instant 5. -/
def expiredWriteLease : Lease :=
  { ID := "L1", ArrayID := "a", PageID := 0, ltype := LeaseType.WriteLease,
    Owner := "w", ExpiresAt := 5, Version := 1 }

/-- A lease manager holding only `expiredWriteLease`, TTL 30. -/
def lmExpired : LeaseManager :=
  { leases := [({ arrayID := "a", pageID := 0 }, expiredWriteLease)], ttl := 30 }

/-- A Read lease on page `("a", 0)` owned by requester `"A"`, expiring at
instant 100. -/
def readLeaseA : Lease :=
  { ID := "LA", ArrayID := "a", PageID := 0, ltype := LeaseType.ReadLease,
    Owner := "A", ExpiresAt := 100, Version := 1 }

/-- A lease manager holding only `readLeaseA`, TTL 30. -/
def lmReadA : LeaseManager :=
  { leases := [({ arrayID := "a", pageID := 0 }, readLeaseA)], ttl := 30 }

lemma mem_leaseKeys_insertLease {t : LeaseTable} {key x : LeaseKey} {l : Lease} :
    x ∈ leaseKeys (insertLease t key l) ↔ x ∈ leaseKeys t ∨ x = key := by
  induction t with
  | nil => simp [insertLease, leaseKeys]
  | cons e rest ih =>
      obtain ⟨k, l'⟩ := e
      by_cases hk : k = key
      · subst hk
        simp [insertLease, leaseKeys]
        tauto
      · simp only [insertLease, if_neg hk, leaseKeys, List.map_cons, List.mem_cons]
        rw [show (List.map Prod.fst (insertLease rest key l) : List LeaseKey)
              = leaseKeys (insertLease rest key l) from rfl, ih]
        simp [leaseKeys]
        tauto

lemma nodup_leaseKeys_insertLease {t : LeaseTable} {key : LeaseKey} {l : Lease}
    (h : (leaseKeys t).Nodup) : (leaseKeys (insertLease t key l)).Nodup := by
  induction t with
  | nil => simp [insertLease, leaseKeys]
  | cons e rest ih =>
      obtain ⟨k, l'⟩ := e
      simp only [leaseKeys, List.map_cons, List.nodup_cons] at h
      by_cases hk : k = key
      · subst hk
        simpa [insertLease, leaseKeys, List.nodup_cons] using h
      · simp only [insertLease, if_neg hk, leaseKeys, List.map_cons, List.nodup_cons]
        refine ⟨?_, ih h.2⟩
        intro hmem
        rcases mem_leaseKeys_insertLease.1 hmem with hmem' | hmem'
        · exact h.1 hmem'
        · exact hk hmem'

lemma releaseInTable_sublist :
    ∀ {t : LeaseTable} {leaseID : String} {t' : LeaseTable},
      releaseInTable t leaseID = some t' → t'.Sublist t := by
  intro t
  induction t with
  | nil => intro leaseID t' h; simp [releaseInTable] at h
  | cons e rest ih =>
      intro leaseID t' h
      obtain ⟨k, l⟩ := e
      simp only [releaseInTable] at h
      by_cases hid : l.ID = leaseID
      · rw [if_pos hid] at h
        cases h
        exact List.sublist_cons_self _ _
      · rw [if_neg hid] at h
        cases hrec : releaseInTable rest leaseID with
        | none => rw [hrec] at h; cases h
        | some t'' =>
            rw [hrec] at h
            cases h
            exact (ih hrec).cons₂ _

lemma nodup_leaseKeys_applyLeaseOp {lm : LeaseManager}
    (h : (leaseKeys lm.leases).Nodup) (op : LeaseOp) :
    (leaseKeys (applyLeaseOp lm op).leases).Nodup := by
  cases op with
  | acquire now newID arrayID pageID leaseType owner version =>
      simp only [applyLeaseOp, AcquireLease]
      cases lookupLease lm.leases { arrayID := arrayID, pageID := pageID } with
      | some existingLease =>
          by_cases h1 : existingLease.ltype = LeaseType.WriteLease
          · simpa [h1] using h
          · by_cases h2 : existingLease.ltype = LeaseType.ReadLease ∧
                leaseType = LeaseType.WriteLease
            · simpa [h1, h2] using h
            · by_cases h3 : existingLease.ltype = LeaseType.ReadLease ∧
                  leaseType = LeaseType.ReadLease
              · simpa [h1, h2, h3] using nodup_leaseKeys_insertLease h
              · simpa [h1, h2, h3] using nodup_leaseKeys_insertLease h
      | none => simpa using nodup_leaseKeys_insertLease h
  | release leaseID =>
      simp only [applyLeaseOp, ReleaseLease]
      cases hrec : releaseInTable lm.leases leaseID with
      | some t =>
          simpa using ((releaseInTable_sublist hrec).map Prod.fst).nodup h
      | none => simpa using h
  | revoke arrayID pageID =>
      simp only [applyLeaseOp, RevokeLease, eraseLease]
      exact ((List.filter_sublist _).map Prod.fst).nodup h
  | cleanup now =>
      simp only [applyLeaseOp, CleanupExpiredLeases]
      exact ((List.filter_sublist _).map Prod.fst).nodup h

lemma nodup_leaseKeys_runLeaseOps {lm : LeaseManager}
    (h : (leaseKeys lm.leases).Nodup) (ops : List LeaseOp) :
    (leaseKeys (runLeaseOps lm ops).leases).Nodup := by
  induction ops generalizing lm with
  | nil => simpa [runLeaseOps] using h
  | cons op rest ih =>
      simpa [runLeaseOps] using ih (nodup_leaseKeys_applyLeaseOp h op)

/-- With pairwise-distinct keys, a key determines the table entry. -/
lemma entry_unique_of_nodup {t : LeaseTable}
    (h : (leaseKeys t).Nodup) {e1 e2 : LeaseKey × Lease}
    (h1 : e1 ∈ t) (h2 : e2 ∈ t) (hk : e1.1 = e2.1) : e1 = e2 := by
  induction t with
  | nil => cases h1
  | cons e rest ih =>
      simp only [leaseKeys, List.map_cons, List.nodup_cons] at h
      rcases List.mem_cons.1 h1 with rfl | h1'
      · rcases List.mem_cons.1 h2 with rfl | h2'
        · rfl
        · exact absurd (hk ▸ List.mem_map_of_mem Prod.fst h2') h.1
      · rcases List.mem_cons.1 h2 with rfl | h2'
        · exact absurd (hk ▸ List.mem_map_of_mem Prod.fst h1') h.1
        · exact ih h.2 h1' h2'

lemma countLeases_le_one {t : LeaseTable} (h : (leaseKeys t).Nodup)
    (key : LeaseKey) (now : Int) (leaseType : LeaseType) :
    countLeases t key now leaseType ≤ 1 := by
  induction t with
  | nil => simp [countLeases]
  | cons e rest ih =>
      simp only [leaseKeys, List.map_cons, List.nodup_cons] at h
      have ihr := ih h.2
      rw [countLeases, List.countP_cons]
      rw [countLeases] at ihr
      by_cases hk : e.1 = key
      · have hz : List.countP
            (fun e => decide (e.1 = key) && decide (¬ now > e.2.ExpiresAt) &&
              decide (e.2.ltype = leaseType)) rest = 0 := by
          rw [List.countP_eq_zero]
          intro a ha
          simp only [Bool.and_eq_true, decide_eq_true_eq]
          rintro ⟨⟨rfl, -⟩, -⟩
          exact h.1 (hk ▸ List.mem_map_of_mem Prod.fst ha)
        rw [hz]
        split <;> omega
      · have hf : (decide (e.1 = key) && decide (¬ now > e.2.ExpiresAt) &&
            decide (e.2.ltype = leaseType)) = false := by
          simp [hk]
        rw [hf]
        simpa using ihr

/-! ### Storage encoding lemmas -/

lemma leBytes_length (w u : Nat) : (leBytes w u).length = w := by
  induction w generalizing u with
  | zero => rfl
  | succ w ih => simp [leBytes, ih]

lemma leValue_leBytes (w u : Nat) : leValue (leBytes w u) = u % 256 ^ w := by
  induction w generalizing u with
  | zero => simp [leBytes, leValue, Nat.mod_one]
  | succ w ih =>
      rw [leBytes, leValue, ih, pow_succ, mul_comm (256 ^ w) 256, Nat.mod_mul]

lemma readBytes_writeBytes (d bytes : List Nat) (off w : Nat)
    (hw : bytes.length = w) (hle : off + w ≤ d.length) :
    readBytes (writeBytes d off bytes) off w = bytes := by
  have htake : (d.take off).length = off := by
    rw [List.length_take]; omega
  rw [readBytes, writeBytes, List.append_assoc, List.drop_left' htake,
    List.take_left' hw]

lemma writeBytes_length (d bytes : List Nat) (off : Nat)
    (h : off + bytes.length ≤ d.length) :
    (writeBytes d off bytes).length = d.length := by
  rw [writeBytes]
  simp only [List.length_append, List.length_take, List.length_drop]
  omega

lemma writeBytes_take (d bytes : List Nat) (off : Nat)
    (h : off ≤ d.length) :
    (writeBytes d off bytes).take off = d.take off := by
  have htake : (d.take off).length = off := by
    rw [List.length_take]; omega
  rw [writeBytes, List.append_assoc, List.take_left' htake]

lemma writeBytes_drop (d bytes : List Nat) (off : Nat)
    (h : off ≤ d.length) :
    (writeBytes d off bytes).drop (off + bytes.length) = d.drop (off + bytes.length) := by
  have hlen : (d.take off ++ bytes).length = off + bytes.length := by
    simp only [List.length_append, List.length_take]
    omega
  rw [writeBytes, List.drop_left' hlen]

lemma goUint64OfInt64_lt (v : Int) : goUint64OfInt64 v < 2 ^ 64 := by
  rw [goUint64OfInt64]
  have h1 : 0 ≤ v % (2 ^ 64 : Int) := Int.emod_nonneg v (by norm_num)
  have h2 : v % (2 ^ 64 : Int) < 2 ^ 64 := Int.emod_lt_of_pos v (by norm_num)
  have h3 : ((2 : Int) ^ 64) = 18446744073709551616 := by norm_num
  have h4 : ((2 : Nat) ^ 64) = 18446744073709551616 := by norm_num
  rw [h3] at h1 h2
  rw [h4]
  omega

lemma goInt64OfUint64_goUint64OfInt64 (v : Int)
    (h1 : -(2 ^ 63) ≤ v) (h2 : v < 2 ^ 63) :
    goInt64OfUint64 (goUint64OfInt64 v) = v := by
  rw [goInt64OfUint64, goUint64OfInt64]
  have p63i : ((2 : Int) ^ 63) = 9223372036854775808 := by norm_num
  have p63n : ((2 : Nat) ^ 63) = 9223372036854775808 := by norm_num
  have p64i : ((2 : Int) ^ 64) = 18446744073709551616 := by norm_num
  have hm1 : 0 ≤ v % (2 ^ 64 : Int) := Int.emod_nonneg v (by norm_num)
  have hm2 : v % (2 ^ 64 : Int) < 2 ^ 64 := Int.emod_lt_of_pos v (by norm_num)
  have hmod : v % (2 ^ 64 : Int) = v ∨ v % (2 ^ 64 : Int) = v + 2 ^ 64 := by
    rcases le_or_lt 0 v with hv | hv
    · left
      exact Int.emod_eq_of_lt hv (by omega)
    · right
      have : (v + 2 ^ 64) % (2 ^ 64 : Int) = v + 2 ^ 64 := by
        apply Int.emod_eq_of_lt <;> omega
      omega
  rw [p63i] at h1 h2
  rw [p63n, p64i] at *
  split <;> omega

/-! ### Lease lookup lemmas -/

/-- The lease IDs recorded in a table. -/
def leaseIDs (t : LeaseTable) : List String := t.map (fun e => e.2.ID)

lemma findLeaseByID_of_mem {t : LeaseTable} {k : LeaseKey} {l : Lease}
    (hnd : (leaseIDs t).Nodup) (hmem : (k, l) ∈ t) :
    findLeaseByID t l.ID = some l := by
  induction t with
  | nil => cases hmem
  | cons e rest ih =>
      obtain ⟨k', l'⟩ := e
      simp only [leaseIDs, List.map_cons, List.nodup_cons] at hnd
      rcases List.mem_cons.1 hmem with heq | hmem'
      · cases heq
        simp [findLeaseByID]
      · rw [findLeaseByID]
        by_cases hid : l'.ID = l.ID
        · exfalso
          apply hnd.1
          rw [hid]
          exact List.mem_map_of_mem (fun e => e.2.ID) hmem'
        · rw [if_neg hid]
          exact ih hnd.2 hmem'

lemma findLeaseByID_eq_none {t : LeaseTable} {leaseID : String}
    (h : ∀ e ∈ t, e.2.ID ≠ leaseID) : findLeaseByID t leaseID = none := by
  induction t with
  | nil => rfl
  | cons e rest ih =>
      rw [findLeaseByID, if_neg (h e (List.mem_cons_self e rest))]
      exact ih (fun e' he' => h e' (List.mem_cons_of_mem e he'))

/-! ## Claim theorems -/

/-- C1 — Single-writer/multi-reader lease exclusivity: in every state
reachable from a fresh lease manager by any sequence of `AcquireLease`,
`ReleaseLease`, `RevokeLease` and `CleanupExpiredLeases` calls, and for
every page and instant, the lease table records at most one unexpired
Write lease for that page, and never an unexpired Write lease together
with an unexpired Read lease for the same page. -/
theorem lease_swmr_exclusivity (ttl now : Int) (ops : List LeaseOp)
    (key : LeaseKey) :
    countLeases (runLeaseOps (NewLeaseManager ttl) ops).leases key now
        LeaseType.WriteLease ≤ 1 ∧
    (countLeases (runLeaseOps (NewLeaseManager ttl) ops).leases key now
        LeaseType.WriteLease = 0 ∨
     countLeases (runLeaseOps (NewLeaseManager ttl) ops).leases key now
        LeaseType.ReadLease = 0) := by
  have hnd : (leaseKeys (runLeaseOps (NewLeaseManager ttl) ops).leases).Nodup :=
    nodup_leaseKeys_runLeaseOps (by simp [NewLeaseManager, leaseKeys]) ops
  refine ⟨countLeases_le_one hnd key now _, ?_⟩
  by_contra hboth
  push_neg at hboth
  obtain ⟨hw0, hr0⟩ := hboth
  have hw : 0 < countLeases (runLeaseOps (NewLeaseManager ttl) ops).leases
      key now LeaseType.WriteLease := Nat.pos_of_ne_zero hw0
  have hr : 0 < countLeases (runLeaseOps (NewLeaseManager ttl) ops).leases
      key now LeaseType.ReadLease := Nat.pos_of_ne_zero hr0
  rw [countLeases, List.countP_pos_iff] at hw hr
  obtain ⟨e1, he1, hp1⟩ := hw
  obtain ⟨e2, he2, hp2⟩ := hr
  simp only [Bool.and_eq_true, decide_eq_true_eq] at hp1 hp2
  have heq : e1 = e2 :=
    entry_unique_of_nodup hnd he1 he2 (by rw [hp1.1.1, hp2.1.1])
  rw [heq] at hp1
  exact absurd (hp1.2.symm.trans hp2.2) (by decide)

/-- C2 (the code refutes the claim) — an expired lease does block
acquisition: with the only lease on page `("a", 0)` a Write lease whose
`ExpiresAt` (5) is long past `now` (100), both a Write and a Read request
by another owner are rejected with the write-conflict error instead of
succeeding; `AcquireLease` never consults the existing lease's
`ExpiresAt`. -/
theorem expired_write_lease_blocks_acquire :
    (100 : Int) > expiredWriteLease.ExpiresAt ∧
    (AcquireLease lmExpired 100 "L2" "a" 0 LeaseType.WriteLease "B" 1).1
      = Except.error LeaseError.writeLeaseExists ∧
    (AcquireLease lmExpired 100 "L3" "a" 0 LeaseType.ReadLease "B" 1).1
      = Except.error LeaseError.writeLeaseExists := by
  refine ⟨by decide, rfl, rfl⟩

/-- C3 (counterexample) — read sharing does not create per-requester
leases: requester `"B"` asking for a Read lease on a page whose only
(unexpired) Read lease belongs to `"A"` gets back `"A"`'s lease with a
refreshed `ExpiresAt` — its `Owner` is still `"A"`, not `"B"` — and the
table still holds exactly that one lease, not two coexisting Read
leases. -/
theorem read_lease_not_per_requester :
    ¬ ((10 : Int) > readLeaseA.ExpiresAt) ∧
    "B" ≠ readLeaseA.Owner ∧
    (AcquireLease lmReadA 10 "LB" "a" 0 LeaseType.ReadLease "B" 1).1
      = Except.ok { readLeaseA with ExpiresAt := 40 } ∧
    Lease.Owner { readLeaseA with ExpiresAt := 40 } = "A" ∧
    (AcquireLease lmReadA 10 "LB" "a" 0 LeaseType.ReadLease "B" 1).2.leases
      = [({ arrayID := "a", pageID := 0 }, { readLeaseA with ExpiresAt := 40 })] := by
  refine ⟨by decide, by decide, rfl, rfl, rfl⟩

/-- C3 (amended) — whenever a Read lease (by any owner, of any expiry)
is recorded for the page, a Read request by any requester succeeds and
returns the one recorded lease with `ExpiresAt` refreshed to `now + ttl`
and `Owner` unchanged; the table keeps a single lease for the page, so
the new requester never obtains a lease of its own. -/
theorem read_lease_extends_existing (lm : LeaseManager) (now : Int)
    (newID arrayID : String) (pageID : Int) (owner : String) (version : Int)
    (existing : Lease)
    (hlk : lookupLease lm.leases { arrayID := arrayID, pageID := pageID }
        = some existing)
    (hread : existing.ltype = LeaseType.ReadLease) :
    AcquireLease lm now newID arrayID pageID LeaseType.ReadLease owner version
      = (Except.ok { existing with ExpiresAt := now + lm.ttl },
         { lm with
            leases := insertLease lm.leases { arrayID := arrayID, pageID := pageID }
              { existing with ExpiresAt := now + lm.ttl } }) := by
  simp [AcquireLease, hlk, hread]

/-- Witness for `read_lease_extends_existing` at a concrete state:
`"B"`'s Read request against `"A"`'s recorded Read lease. -/
theorem read_lease_extends_existing_witness :
    AcquireLease lmReadA 10 "LB" "a" 0 LeaseType.ReadLease "B" 1
      = (Except.ok { readLeaseA with ExpiresAt := 10 + lmReadA.ttl },
         { lmReadA with
            leases := insertLease lmReadA.leases { arrayID := "a", pageID := 0 }
              { readLeaseA with ExpiresAt := 10 + lmReadA.ttl } }) :=
  read_lease_extends_existing lmReadA 10 "LB" "a" 0 "B" 1 readLeaseA rfl rfl

/-- C4 — 2Q eviction order: `evict` removes the back of the "once"
list when it is non-empty and only otherwise the back of the "frequent"
list; an overflowing `Put` of a fresh key is exactly an insert at the
front of "once" followed by `evict`; inserting pages 0, 1, 2 into an
empty capacity-2 cache evicts page 0 leaving pages 1 and 2; and a page
touched twice (promoted to "frequent") before a third insertion is
retained while the untouched once-list page is evicted instead. -/
theorem twoQ_eviction_order :
    (∀ (pc : PageCache Nat), pc.onceList ≠ [] →
        cacheEvict pc = { pc with onceList := pc.onceList.dropLast }) ∧
    (∀ (pc : PageCache Nat), pc.onceList = [] →
        cacheEvict pc = { pc with freqList := pc.freqList.dropLast }) ∧
    (∀ (pc : PageCache Nat) (arrayID : String) (pageID : Int) (page : Nat),
        lookupEntry pc.onceList { arrayID := arrayID, pageID := pageID } = none →
        lookupEntry pc.freqList { arrayID := arrayID, pageID := pageID } = none →
        (cacheLen pc : Int) + 1 > pc.capacity →
        cachePut pc arrayID pageID page
          = cacheEvict { pc with
              onceList := ({ arrayID := arrayID, pageID := pageID }, page)
                :: pc.onceList }) ∧
    (cachePut (cachePut (cachePut (NewPageCache Nat 2) "arr" 0 100) "arr" 1 101)
        "arr" 2 102
      = { capacity := 2,
          onceList := [({ arrayID := "arr", pageID := 2 }, 102),
                       ({ arrayID := "arr", pageID := 1 }, 101)],
          freqList := [] }) ∧
    (cachePut ((cacheGet (cachePut (cachePut (NewPageCache Nat 2) "arr" 0 100)
          "arr" 1 101) "arr" 0).2) "arr" 2 102
      = { capacity := 2,
          onceList := [({ arrayID := "arr", pageID := 2 }, 102)],
          freqList := [({ arrayID := "arr", pageID := 0 }, 100)] }) := by
  refine ⟨?_, ?_, ?_, ?_, ?_⟩
  · rintro ⟨cap, once, freq⟩ h
    cases once with
    | nil => exact absurd rfl h
    | cons e rest => simp [cacheEvict]
  · rintro ⟨cap, once, freq⟩ h
    cases h
    cases freq <;> simp [cacheEvict]
  · intro pc arrayID pageID page h1 h2 hlen
    simp only [cachePut, h1, h2]
    rw [if_pos]
    simp only [cacheLen, List.length_cons] at hlen ⊢
    push_cast at hlen ⊢
    omega
  · rfl
  · rfl

/-- Witness for `twoQ_eviction_order`: evicting from a cache whose "once"
list holds one entry drops that entry. -/
theorem twoQ_eviction_order_witness :
    cacheEvict ({ capacity := 2,
                  onceList := [({ arrayID := "arr", pageID := 0 }, 100)],
                  freqList := [] } : PageCache Nat)
      = { capacity := 2, onceList := [], freqList := [] } :=
  twoQ_eviction_order.1
    { capacity := 2,
      onceList := [({ arrayID := "arr", pageID := 0 }, 100)],
      freqList := [] } (by decide)

/-- C6 (the code refutes the claim; code bug) — `sharedArray.Sync`
is a stub: it returns `nil` and leaves the state, in particular
`sa.array.Version`, untouched, so the Version after a completed Sync is
never strictly greater than before; the source's own comment lists the
version bump as unimplemented. -/
theorem sync_does_not_bump_version :
    (∀ sa : sharedArray, sharedArray.Sync sa = (Except.ok (), sa)) ∧
    (sharedArray.Sync { array := NewArray "arr1" 100 }).2.array.Version = 1 ∧
    ¬ ((sharedArray.Sync { array := NewArray "arr1" 100 }).2.array.Version >
        ({ array := NewArray "arr1" 100 } : sharedArray).array.Version) :=
  ⟨fun _ => rfl, rfl, by decide⟩

/-- C8 — array page-count formula: `NewArray` computes `NumPages` as
the ceiling of `Length × 8 / PageSize` (this is what `⌈/⌉` denotes, as the
Galois characterisation restates); 100 elements give 1 page and
10,000,000 elements give 1221 pages. -/
theorem array_page_count (id : String) (length : Nat) :
    (NewArray id length).NumPages = (length * 8) ⌈/⌉ PageSize ∧
    (∀ n : Nat, (NewArray id length).NumPages ≤ n ↔ length * 8 ≤ PageSize * n) ∧
    (NewArray "x" 100).NumPages = 1 ∧
    (NewArray "x" 10000000).NumPages = 1221 := by
  refine ⟨rfl, ?_, by decide, by decide⟩
  intro n
  have h := ceilDiv_le_iff_le_smul (α := Nat) (β := Nat)
    (show 0 < PageSize by decide) (b := length * 8) (c := n)
  simpa [smul_eq_mul] using h

/-- Writing `w` little-endian bytes of `u` at `off` and reading them back
decodes to `u`. -/
lemma leValue_readBytes_writeBytes (d : List Nat) (off w u : Nat)
    (hlen : off + w ≤ d.length) (hu : u < 256 ^ w) :
    leValue (readBytes (writeBytes d off (leBytes w u)) off w) = u := by
  rw [readBytes_writeBytes d _ off w (leBytes_length w u) hlen,
    leValue_leBytes, Nat.mod_eq_of_lt hu]

/-- C7 — int64 round-trip and bounds rejection: a `SetInt64` at a
valid element index succeeds, a following `GetInt64` returns the value
written, and the bytes before and after the written 8-byte window are
untouched; any access whose byte offset is negative or overruns the
buffer fails with the out-of-bounds error (and, returning no new state,
writes nothing). -/
theorem int64_roundtrip_and_bounds :
    (∀ (p : Page) (i v : Int),
        p.storage.data.length = PageSize →
        0 ≤ i * 8 → i * 8 + 8 ≤ (PageSize : Int) →
        -(2 ^ 63) ≤ v → v < 2 ^ 63 →
        ∃ p', p.SetInt64 i v = Except.ok p' ∧
          p'.GetInt64 i = Except.ok v ∧
          p'.storage.data.take (i * 8).toNat = p.storage.data.take (i * 8).toNat ∧
          p'.storage.data.drop ((i * 8).toNat + 8)
            = p.storage.data.drop ((i * 8).toNat + 8)) ∧
    (∀ (p : Page) (i v : Int),
        i * 8 < 0 ∨ i * 8 + 8 > (p.storage.data.length : Int) →
        p.SetInt64 i v = Except.error StorageError.outOfBounds) ∧
    (∀ (p : Page) (i : Int),
        i * 8 < 0 ∨ i * 8 + 8 > (p.storage.data.length : Int) →
        p.GetInt64 i = Except.error StorageError.outOfBounds) := by
  refine ⟨?_, ?_, ?_⟩
  · intro p i v hlen h0 h8 hv1 hv2
    have hnb : ¬ (i * 8 < 0 ∨ i * 8 + 8 > (p.storage.data.length : Int)) := by
      rw [hlen]
      push_neg
      exact ⟨h0, h8⟩
    have hoff : (i * 8).toNat + 8 ≤ p.storage.data.length := by
      rw [hlen]
      have hps : ((PageSize : Nat) : Int) = 65536 := by decide
      have : (PageSize : Nat) = 65536 := by decide
      omega
    have hbytes : (leBytes 8 (goUint64OfInt64 v)).length = 8 :=
      leBytes_length 8 _
    refine ⟨{ p with storage :=
        { data := writeBytes p.storage.data (i * 8).toNat
            (leBytes 8 (goUint64OfInt64 v)) } }, ?_, ?_, ?_, ?_⟩
    · rw [Page.SetInt64, pageStorage.setInt64, if_neg hnb]
      rfl
    · rw [Page.GetInt64, pageStorage.getInt64, if_neg]
      · have hlt : goUint64OfInt64 v < 256 ^ 8 := by
          have h1 := goUint64OfInt64_lt v
          have h2 : (256 : Nat) ^ 8 = 2 ^ 64 := by norm_num
          omega
        rw [leValue_readBytes_writeBytes _ _ _ _ hoff hlt,
          goInt64OfUint64_goUint64OfInt64 v hv1 hv2]
      · have hwl : (writeBytes p.storage.data (i * 8).toNat
            (leBytes 8 (goUint64OfInt64 v))).length = p.storage.data.length :=
          writeBytes_length _ _ _ (by omega)
        simp only [hwl]
        exact hnb
    · exact writeBytes_take _ _ _ (by omega)
    · have := writeBytes_drop p.storage.data
        (leBytes 8 (goUint64OfInt64 v)) (i * 8).toNat (by omega)
      rwa [hbytes] at this
  · intro p i v h
    rw [Page.SetInt64, pageStorage.setInt64, if_pos h]
    rfl
  · intro p i h
    rw [Page.GetInt64, pageStorage.getInt64, if_pos h]

/-- Witness for `int64_roundtrip_and_bounds`: on a fresh page, writing 42
at element index 0 and reading it back returns 42, and an 8-byte write at
element index 8192 (byte offset 65536, past the 64 KiB page end) fails
with the out-of-bounds error. -/
theorem int64_roundtrip_and_bounds_witness :
    (∃ p', (NewPage 0 1).SetInt64 0 42 = Except.ok p' ∧
      p'.GetInt64 0 = Except.ok 42) ∧
    (NewPage 0 1).SetInt64 8192 7 = Except.error StorageError.outOfBounds := by
  constructor
  · obtain ⟨p', h1, h2, -, -⟩ :=
      int64_roundtrip_and_bounds.1 (NewPage 0 1) 0 42
        (show (List.replicate PageSize 0).length = PageSize by
          rw [List.length_replicate]) (by decide) (by decide)
        (by decide) (by decide)
    exact ⟨p', h1, h2⟩
  · refine int64_roundtrip_and_bounds.2.1 (NewPage 0 1) 8192 7 (Or.inr ?_)
    have hl : (NewPage 0 1).storage.data.length = PageSize := by
      show (List.replicate PageSize 0).length = PageSize
      rw [List.length_replicate]
    rw [hl]
    decide

/-- C9 — lease expiry surfacing and sweep: `ValidateLease` fails with
the expired error whenever the lease with the given ID exists and
`now > ExpiresAt`, fails with not-found whenever no lease has the ID, and
returns the lease otherwise; `CleanupExpiredLeases` removes exactly the
entries with `now > ExpiresAt`. -/
theorem lease_expiry_validation_and_sweep :
    (∀ (lm : LeaseManager) (now : Int) (k : LeaseKey) (l : Lease),
        (leaseIDs lm.leases).Nodup → (k, l) ∈ lm.leases →
        now > l.ExpiresAt →
        ValidateLease lm now l.ID = Except.error LeaseError.leaseExpired) ∧
    (∀ (lm : LeaseManager) (now : Int) (leaseID : String),
        (∀ e ∈ lm.leases, e.2.ID ≠ leaseID) →
        ValidateLease lm now leaseID = Except.error LeaseError.leaseNotFound) ∧
    (∀ (lm : LeaseManager) (now : Int) (k : LeaseKey) (l : Lease),
        (leaseIDs lm.leases).Nodup → (k, l) ∈ lm.leases →
        ¬ now > l.ExpiresAt →
        ValidateLease lm now l.ID = Except.ok l) ∧
    (∀ (lm : LeaseManager) (now : Int) (k : LeaseKey) (l : Lease),
        (k, l) ∈ (CleanupExpiredLeases lm now).leases ↔
          (k, l) ∈ lm.leases ∧ ¬ now > l.ExpiresAt) := by
  refine ⟨?_, ?_, ?_, ?_⟩
  · intro lm now k l hnd hmem hexp
    rw [ValidateLease, findLeaseByID_of_mem hnd hmem]
    exact if_pos hexp
  · intro lm now leaseID h
    rw [ValidateLease, findLeaseByID_eq_none h]
  · intro lm now k l hnd hmem hexp
    rw [ValidateLease, findLeaseByID_of_mem hnd hmem]
    exact if_neg hexp
  · intro lm now k l
    simp [CleanupExpiredLeases, List.mem_filter]

/-- Witness for `lease_expiry_validation_and_sweep`: validating the
expired Write lease `"L1"` at instant 100 fails with the expired error,
and the sweep at instant 100 removes it. -/
theorem lease_expiry_validation_and_sweep_witness :
    ValidateLease lmExpired 100 "L1" = Except.error LeaseError.leaseExpired ∧
    ¬ (({ arrayID := "a", pageID := 0 }, expiredWriteLease)
        ∈ (CleanupExpiredLeases lmExpired 100).leases) := by
  constructor
  · exact lease_expiry_validation_and_sweep.1 lmExpired 100
      { arrayID := "a", pageID := 0 } expiredWriteLease
      (by decide) (by decide) (by decide)
  · intro hmem
    have h := (lease_expiry_validation_and_sweep.2.2.2 lmExpired 100
      { arrayID := "a", pageID := 0 } expiredWriteLease).1 hmem
    exact absurd (by decide : (100 : Int) > expiredWriteLease.ExpiresAt) h.2

/-- C10 — `AcquireLease` is atomic on conflict: whenever it returns an
error, the lease manager state (in particular the lease table) is exactly
the state before the call. -/
theorem acquire_conflict_is_atomic (lm : LeaseManager) (now : Int)
    (newID arrayID : String) (pageID : Int) (leaseType : LeaseType)
    (owner : String) (version : Int) (e : LeaseError)
    (h : (AcquireLease lm now newID arrayID pageID leaseType owner version).1
        = Except.error e) :
    (AcquireLease lm now newID arrayID pageID leaseType owner version).2
      = lm := by
  simp only [AcquireLease] at h ⊢
  cases hlk : lookupLease lm.leases { arrayID := arrayID, pageID := pageID } with
  | none =>
      rw [hlk] at h
      simp at h
  | some existingLease =>
      dsimp only at h ⊢
      split_ifs at h ⊢ <;> simp_all

/-- Witness for `acquire_conflict_is_atomic`: a Write request against the
recorded Read lease errors and leaves the manager unchanged. -/
theorem acquire_conflict_is_atomic_witness :
    (AcquireLease lmReadA 10 "LB" "a" 0 LeaseType.WriteLease "B" 1).2
      = lmReadA :=
  acquire_conflict_is_atomic lmReadA 10 "LB" "a" 0 LeaseType.WriteLease "B" 1
    LeaseError.readLeaseExists rfl

/-- What the float accessors actually compute: a `SetFloat32` at a valid
offset stores the little-endian bytes of the *numerically truncated*
value `uint32(f)`, so the following `GetFloat32` returns that integer as
a rational — not `f`. -/
lemma setFloat32_getFloat32 (p : Page) (i : Int) (f : ℚ)
    (hlen : p.storage.data.length = PageSize)
    (h0 : 0 ≤ i * 4) (h4 : i * 4 + 4 ≤ (PageSize : Int))
    (hf : goUint32OfFloat32 f < 256 ^ 4) :
    ∃ p', p.SetFloat32 i f = Except.ok p' ∧
      p'.GetFloat32 i = Except.ok ((goUint32OfFloat32 f : ℚ)) := by
  have hnb : ¬ (i * 4 < 0 ∨ i * 4 + 4 > (p.storage.data.length : Int)) := by
    rw [hlen]
    push_neg
    exact ⟨h0, h4⟩
  have hoff : (i * 4).toNat + 4 ≤ p.storage.data.length := by
    rw [hlen]
    have : (PageSize : Nat) = 65536 := by decide
    have hps : ((PageSize : Nat) : Int) = 65536 := by decide
    omega
  have hbytes : (leBytes 4 (goUint32OfFloat32 f)).length = 4 :=
    leBytes_length 4 _
  refine ⟨{ p with storage :=
      { data := writeBytes p.storage.data (i * 4).toNat
          (leBytes 4 (goUint32OfFloat32 f)) } }, ?_, ?_⟩
  · rw [Page.SetFloat32, pageStorage.setFloat32, if_neg hnb]
    rfl
  · rw [Page.GetFloat32, pageStorage.getFloat32, if_neg]
    · rw [leValue_readBytes_writeBytes _ _ _ _ hoff hf]
      rfl
    · have hwl : (writeBytes p.storage.data (i * 4).toNat
          (leBytes 4 (goUint32OfFloat32 f))).length = p.storage.data.length :=
        writeBytes_length _ _ _ (by omega)
      simp only [hwl]
      exact hnb

/-- C5 (the code refutes the claim; code bug) — the float32
round-trip loses the fractional part: `SetFloat32` stores
`uint32(value)`, a numeric truncation of the float to an integer, rather
than the IEEE-754 bit pattern (`math.Float32bits`), and `GetFloat32`
converts the decoded integer numerically back.  Writing 3/2 (= 1.5, an
exact float32) at element index 0 of a fresh page and reading it back
yields 1, not 3/2. -/
theorem float32_roundtrip_loses_fraction :
    ∃ p', (NewPage 0 1).SetFloat32 0 (3 / 2) = Except.ok p' ∧
      p'.GetFloat32 0 = Except.ok 1 ∧ (1 : ℚ) ≠ 3 / 2 := by
  have hfl : ⌊(3 / 2 : ℚ)⌋ = 1 := by
    rw [Int.floor_eq_iff]
    norm_num
  have hcast : ((goUint32OfFloat32 (3 / 2) : Nat) : ℚ) = 1 := by
    rw [goUint32OfFloat32, hfl]
    norm_num
  obtain ⟨p', h1, h2⟩ :=
    setFloat32_getFloat32 (NewPage 0 1) 0 (3 / 2)
      (show (List.replicate PageSize 0).length = PageSize by
        rw [List.length_replicate])
      (by decide) (by decide)
      (by rw [goUint32OfFloat32, hfl]; decide)
  rw [hcast] at h2
  exact ⟨p', h1, h2, by norm_num⟩

end HoloCompute
